import Mathlib

/-!
Shallow embedding of the batching, weighting and prediction-reassembly core of
`src/parser.py` (class `Parser`).  Machine floats (`np.log`, `1e-9`) are
modelled symbolically by `WVal`; the external collaborators (feature/target
encoders, the neural model) are parameters, exactly as the spec scopes them.
-/

namespace Combo

/-- One word of a sentence: an ordered association list of named fields
(`token.fields` in the source). -/
structure Token (V : Type) where
  fields : List (String × V)
deriving DecidableEq

/-- A parsed sentence (`utils.Tree`): identifier, tokens, raw words, comment
strings, optional per-row probabilities and optional sentence embedding. -/
structure Tree (V P : Type) where
  id : ℕ
  tokens : List (Token V)
  words : List String
  comments : List String
  probs : Option (List P) := none
  emb : Option (List V) := none
deriving DecidableEq

instance {V : Type} : Inhabited (Token V) := ⟨⟨[]⟩⟩

/-- The configuration surface consumed by the core (`self.params`).
`train_part`, `full_tree` and `part_tree` embed the source attributes
`train_partial`, `full_tree` and `partial_tree`. -/
structure Params where
  batch_size : ℕ
  targets : List String
  train_part : Bool
  full_tree : String
  part_tree : String
  save_probs : Bool
deriving DecidableEq

/-- Token counts of a list of trees: the loops only inspect `len(tree.tokens)`. -/
def treeLens {V P : Type} (trees : List (Tree V P)) : List ℕ :=
  trees.map (fun t => t.tokens.length)

/-- Maximum row length in a raggedy 2-D column (the `maxlen=None` default of
`keras pad_sequences`). -/
def maxRowLen (xs : List (List ℕ)) : ℕ :=
  (xs.map List.length).foldr max 0

/-- Right-pad one row with zeros to length `m` (`padding='post'`). -/
def padTo (m : ℕ) (x : List ℕ) : List ℕ :=
  x ++ List.replicate (m - x.length) 0

/-- `pad_sequences(x, padding='post')`: every row is right-padded with zeros to
the longest row of the column. -/
def padSeqs (xs : List (List ℕ)) : List (List ℕ) :=
  xs.map (padTo (maxRowLen xs))

/-- `keras to_categorical(m, num_classes=classes)`: one-hot encode every entry
of a 2-D array, adding a trailing class axis. -/
def to_categorical (classes : ℕ) (m : List (List ℕ)) : List (List (List ℕ)) :=
  m.map fun row => row.map fun v => (List.range classes).map fun i => if i = v then 1 else 0

/-- `shape[1]` of a 2-D array: the common row length (length of the first row). -/
def shape1 (m : List (List ℕ)) : ℕ :=
  ((m.head?).map List.length).getD 0

/-- Number of rows of a batch stored column-wise: `batch[0].shape[0]`
(length of the first column). -/
def rowsOf {α : Type} (b : List (List α)) : ℕ :=
  ((b.head?).map List.length).getD 0

/-- Modelled from the spec: the shared word-count-threshold partition rule of
§4.1, produced once over the token counts (spec §9 suggests a single partition
function).  `groupSizes bs ns wb k` returns the row counts of the batches that
the engine carves out of token counts `ns`, starting with `wb` words and `k`
rows already accumulated in the open batch. -/
def groupSizes (bs : ℕ) : List ℕ → ℕ → ℕ → List ℕ
  | [], wb, k => if 0 < wb then [k] else []
  | n :: ns, wb, k =>
    if bs < wb + n then (k + 1) :: groupSizes bs ns 0 0
    else groupSizes bs ns (wb + n) (k + 1)

/-- Loop body of `batchify_X` (parser.py lines 55-75): `raw` is the output of
`features_factory.transform(trees)` (one column per feature, one row per tree),
`idx` is `row_idx`, `wb` is `words_batch`, `batch` the open per-column
accumulator.  A tree is appended to every column first; the batch is closed
(padded and emitted) only afterwards, when `words_batch` strictly exceeds
`batch_size`; a trailing batch is emitted only when `words_batch > 0`. -/
def batchify_X_go (bs : ℕ) (raw : List (List (List ℕ))) :
    List ℕ → ℕ → ℕ → List (List (List ℕ)) → List (List (List (List ℕ)))
  | [], _, wb, batch => if 0 < wb then [batch.map padSeqs] else []
  | n :: ns, idx, wb, batch =>
    let batch' := List.zipWith (fun col c => col ++ [c.getD idx []]) batch raw
    if bs < wb + n then
      (batch'.map padSeqs) :: batchify_X_go bs raw ns (idx + 1) 0 (raw.map fun _ => [])
    else
      batchify_X_go bs raw ns (idx + 1) (wb + n) batch'

/-- `Parser.batchify_X` (parser.py lines 51-75). -/
def batchify_X {V P : Type} (p : Params) (raw : List (List (List ℕ)))
    (trees : List (Tree V P)) : List (List (List (List ℕ))) :=
  batchify_X_go p.batch_size raw (treeLens trees) 0 0 (raw.map fun _ => [])

/-- Sample weights are floats in the source; they are embedded symbolically:
`logTokens n` stands for `np.log(n)` (that is `Real.log n`) and `negligible`
for the literal `1e-9`. -/
inductive WVal where
  | logTokens : ℕ → WVal
  | negligible : WVal
deriving DecidableEq

/-- The supervision-tier set of targets of `batchify_weights`
(parser.py lines 132-150). -/
def supervisedTargets {V P : Type} (p : Params) (t : Tree V P) : List String :=
  if ¬ p.train_part ∨ p.full_tree ∈ t.comments then
    ["head", "deprel", "lemma", "upostag", "xpostag", "feats", "semrel"]
  else if p.part_tree ∈ t.comments then
    ["lemma", "upostag", "xpostag", "feats"]
  else []

/-- The seven target names the weighting policy can ever supervise. -/
def recognizedTargets : List String :=
  ["head", "deprel", "lemma", "upostag", "xpostag", "feats", "semrel"]

/-- One appended weight entry (parser.py line 153):
`sample_weight if target in targets else 1e-9`. -/
def weightEntry {V P : Type} (p : Params) (t : Tree V P) (tg : String) : WVal :=
  if tg ∈ supervisedTargets p t then WVal.logTokens t.tokens.length else WVal.negligible

/-- Loop of `batchify_weights` (parser.py lines 129-163): same accumulate /
close-after-append / trailing-if-positive control as `batchify_X`, but the
columns (one per configured target) receive weight entries and are emitted
without padding. -/
def batchify_weights_go {V P : Type} (p : Params) :
    List (Tree V P) → ℕ → List (List WVal) → List (List (List WVal))
  | [], wb, batch => if 0 < wb then [batch] else []
  | t :: ts, wb, batch =>
    let batch' := List.zipWith (fun col tg => col ++ [weightEntry p t tg]) batch p.targets
    if p.batch_size < wb + t.tokens.length then
      batch' :: batchify_weights_go p ts 0 (p.targets.map fun _ => [])
    else
      batchify_weights_go p ts (wb + t.tokens.length) batch'

/-- `Parser.batchify_weights` (parser.py lines 124-164). -/
def batchify_weights {V P : Type} (p : Params) (trees : List (Tree V P)) :
    List (List (List WVal)) :=
  batchify_weights_go p trees 0 (p.targets.map fun _ => [])

/-- A target column after the per-target encoding dispatch of `batchify_y`:
either a one-hot encoded 3-D array or a passed-through 2-D array. -/
inductive Encoded where
  | cat : List (List (List ℕ)) → Encoded
  | plain : List (List ℕ) → Encoded
deriving DecidableEq

/-- Row count of an encoded target column. -/
def encRows : Encoded → ℕ
  | .cat m => m.length
  | .plain m => m.length

/-- Row count of an emitted `batchify_y` batch (rows of its first column). -/
def rowsOfY (b : List Encoded) : ℕ :=
  ((b.head?).map encRows).getD 0

/-- Per-target encoding dispatch of `batchify_y` (parser.py lines 95-101 and
111-117): `head` is one-hot encoded over the padded column's own
`shape[1]`, `feats` and `sent` pass through, and any other name is one-hot
encoded over `targets_factory.encoders[target].vocab_size` - a dictionary
lookup that raises when the target is unknown, embedded by `vocab` returning
`none` and the dispatch returning `Except.error`. -/
def encodeTargets (vocab : String → Option ℕ) :
    List (String × List (List ℕ)) → Except String (List Encoded)
  | [] => .ok []
  | (t, m) :: rest =>
    if t = "head" then
      (encodeTargets vocab rest).map (fun r => Encoded.cat (to_categorical (shape1 m) m) :: r)
    else if t = "feats" ∨ t = "sent" then
      (encodeTargets vocab rest).map (fun r => Encoded.plain m :: r)
    else
      match vocab t with
      | none => .error t
      | some vs =>
        (encodeTargets vocab rest).map (fun r => Encoded.cat (to_categorical vs m) :: r)

/-- Loop of `batchify_y` (parser.py lines 81-122): same batching control as
`batchify_X` over the target columns `raw`, with the encoding dispatch run on
every closed (padded) batch.  The first failing dictionary lookup aborts the
pass, exactly as the Python `KeyError` would. -/
def batchify_y_go (p : Params) (vocab : String → Option ℕ) (raw : List (List (List ℕ))) :
    List ℕ → ℕ → ℕ → List (List (List ℕ)) → Except String (List (List Encoded))
  | [], _, wb, batch =>
    if 0 < wb then
      (encodeTargets vocab (p.targets.zip (batch.map padSeqs))).map (fun b => [b])
    else .ok []
  | n :: ns, idx, wb, batch =>
    let batch' := List.zipWith (fun col c => col ++ [c.getD idx []]) batch raw
    if p.batch_size < wb + n then
      match encodeTargets vocab (p.targets.zip (batch'.map padSeqs)) with
      | .error e => .error e
      | .ok b =>
        (batchify_y_go p vocab raw ns (idx + 1) 0 (raw.map fun _ => [])).map (fun r => b :: r)
    else
      batchify_y_go p vocab raw ns (idx + 1) (wb + n) batch'

/-- `Parser.batchify_y` (parser.py lines 77-122); `raw` is the output of
`targets_factory.transform(trees)`. -/
def batchify_y {V P : Type} (p : Params) (vocab : String → Option ℕ)
    (raw : List (List (List ℕ))) (trees : List (Tree V P)) :
    Except String (List (List Encoded)) :=
  batchify_y_go p vocab raw (treeLens trees) 0 0 (raw.map fun _ => [])

/-- Field lookup in a token's ordered field map. -/
def getField {V : Type} (fs : List (String × V)) (k : String) : Option V :=
  (fs.find? (fun kv => kv.1 = k)).map (fun kv => kv.2)

/-- Dictionary assignment `fields[k] = v`: replace the value of an existing
key in place, otherwise append the new key at the end (Python dicts keep
insertion order and hold each key once). -/
def setField {V : Type} : List (String × V) → String → V → List (String × V)
  | [], k, v => [(k, v)]
  | kv :: rest, k, v => if kv.1 = k then (k, v) :: rest else kv :: setField rest k v

/-- The slice `trees[tree_idx:(tree_idx + rows)]` of parser.py line 201.
Like the Python slice it silently truncates at the end of the list. -/
def batchSlice {V P : Type} (trees : List (Tree V P)) (tree_idx rows : ℕ) :
    List (Tree V P) :=
  (trees.drop tree_idx).take rows

/-- One step of the field loop of `predict` (parser.py lines 215-219): for a
(target name, per-row prediction) pair, either store the `sent` prediction in
the `emb` cell or overwrite the named token field with the prediction at token
position `idx`.  The state is the pair (token, emb). -/
def updStep {V : Type} [Inhabited V] (idx : ℕ) (st : Token V × Option (List V))
    (fp : String × List V) : Token V × Option (List V) :=
  if fp.1 = "sent" then (st.1, some fp.2)
  else (⟨setField st.1.fields fp.1 (fp.2.getD idx default)⟩, st.2)

/-- Inner field loop of `predict` (parser.py lines 214-219) for one token:
starting from a copy of the original token, run `updStep` over the zipped
(target, prediction) pairs. -/
def updToken {V : Type} [Inhabited V] (targets : List String) (rowPreds : List (List V))
    (idx : ℕ) (st : Token V × Option (List V)) : Token V × Option (List V) :=
  (targets.zip rowPreds).foldl (updStep idx) st

/-- Token loop of `predict` (parser.py lines 211-220): build the new token
list for one tree, threading the `emb` cell that starts as `None` per tree. -/
def buildTokens {V : Type} [Inhabited V] (targets : List String) (rowPreds : List (List V)) :
    List (Token V) → ℕ → Option (List V) → List (Token V) × Option (List V)
  | [], _, emb => ([], emb)
  | tok :: toks, idx, emb =>
    let r := updToken targets rowPreds idx (tok, emb)
    let rest := buildTokens targets rowPreds toks (idx + 1) r.2
    (r.1 :: rest.1, rest.2)

/-- Reassembly of one predicted tree (parser.py lines 211-229): a fresh `Tree`
carrying the rebuilt tokens, the original identifier, words and comments, the
row probabilities when `save_probs` is set, and the `sent` prediction as the
embedding. -/
def reassembleTree {V P : Type} [Inhabited V] (p : Params) (old : Tree V P)
    (rowProbs : List P) (rowPreds : List (List V)) : Tree V P :=
  let r := buildTokens p.targets rowPreds old.tokens 0 none
  { id := old.id, tokens := r.1, words := old.words, comments := old.comments,
    probs := if p.save_probs then some rowProbs else none, emb := r.2 }

/-- Batch loop of `predict` (parser.py lines 199-230): for every feature batch,
slice `batch[0].shape[0]` trees starting at `tree_idx`, run the model
(`pob` embeds `model.predict_on_batch`) and the decoder (`inv` embeds
`targets_factory.inverse_transform`, giving one prediction list per target),
and reassemble one output tree per sliced row.  `tree_idx` advances once per
reassembled row. -/
def predict_go {V P : Type} [Inhabited V] [Inhabited P] (p : Params)
    (pob : List (List (List ℕ)) → List (List P))
    (inv : List (List P) → List (Tree V P) → List (List (List V)))
    (trees : List (Tree V P)) :
    List (List (List (List ℕ))) → ℕ → List (Tree V P)
  | [], _ => []
  | b :: bs, tree_idx =>
    let bt := batchSlice trees tree_idx (rowsOf b)
    let bp := pob b
    let bpr := inv bp bt
    (bt.enum.map fun rt =>
      reassembleTree p rt.2 (bp.map fun q => q.getD rt.1 default)
        (bpr.map fun q => q.getD rt.1 default))
      ++ predict_go p pob inv trees bs (tree_idx + bt.length)

/-- `sorted(trees, key=lambda x: len(x.tokens))` (parser.py lines 167 and 196):
a stable ascending sort by token count. -/
def sortByTokens {V P : Type} (trees : List (Tree V P)) : List (Tree V P) :=
  List.insertionSort (fun a b => a.tokens.length ≤ b.tokens.length) trees

/-- `sorted(output_trees, key=lambda x: x.id)` (parser.py line 232). -/
def sortById {V P : Type} (trees : List (Tree V P)) : List (Tree V P) :=
  List.insertionSort (fun a b => a.id ≤ b.id) trees

/-- `Parser.predict` (parser.py lines 195-233): sort by token count, batch the
features, run the per-batch loop, and re-sort the reassembled trees by
identifier.  `raw` is `features_factory.transform` of the sorted trees. -/
def predict {V P : Type} [Inhabited V] [Inhabited P] (p : Params)
    (raw : List (List (List ℕ)))
    (pob : List (List (List ℕ)) → List (List P))
    (inv : List (List P) → List (Tree V P) → List (List (List V)))
    (trees0 : List (Tree V P)) : List (Tree V P) :=
  let trees := sortByTokens trees0
  sortById (predict_go p pob inv trees (batchify_X p raw trees) 0)

/-- Modelled from the spec and the reassembly loop: the value the `emb` cell
holds after one pass over the target list, namely the prediction of the last
`sent` target if one occurs (otherwise the cell is untouched). -/
def lastSentPred {V : Type} (targets : List String) (rowPreds : List (List V)) :
    Option (List V) :=
  (targets.zip rowPreds).foldl
    (fun acc fp => if fp.1 = "sent" then some fp.2 else acc) none

/-! Row-count lemmas: every pass emits batches whose row counts are the
group sizes of the shared word-count partition. -/

theorem rowsOf_map_padSeqs (cols : List (List (List ℕ))) (k : ℕ)
    (h0 : cols ≠ []) (h : ∀ c ∈ cols, c.length = k) :
    rowsOf (cols.map padSeqs) = k := by
  cases cols with
  | nil => exact absurd rfl h0
  | cons c cs => simpa [rowsOf, padSeqs] using h c (List.mem_cons_self c cs)

theorem length_mem_zipWith_append {α β : Type} (g : β → α) :
    ∀ (cols : List (List α)) (ys : List β) (k : ℕ),
      (∀ c ∈ cols, c.length = k) →
      ∀ c' ∈ List.zipWith (fun col y => col ++ [g y]) cols ys, c'.length = k + 1 := by
  intro cols
  induction cols with
  | nil => intro ys k _ c' hc'; simp at hc'
  | cons c cs ih =>
    intro ys k h c' hc'
    cases ys with
    | nil => simp at hc'
    | cons y ys' =>
      simp only [List.zipWith, List.mem_cons] at hc'
      rcases hc' with rfl | hc'
      · simp [h c (List.mem_cons_self c cs)]
      · exact ih ys' k (fun x hx => h x (List.mem_cons_of_mem c hx)) c' hc'

theorem batchify_X_go_rows (bs : ℕ) (raw : List (List (List ℕ))) (hraw : raw ≠ []) :
    ∀ (ns : List ℕ) (idx wb k : ℕ) (batch : List (List (List ℕ))),
      batch.length = raw.length → (∀ c ∈ batch, c.length = k) →
      (batchify_X_go bs raw ns idx wb batch).map rowsOf = groupSizes bs ns wb k := by
  intro ns
  induction ns with
  | nil =>
    intro idx wb k batch hlen hcols
    simp only [batchify_X_go, groupSizes]
    split
    · simp only [List.map_cons, List.map_nil]
      rw [rowsOf_map_padSeqs batch k _ hcols]
      intro hb
      apply hraw
      apply List.length_eq_zero.mp
      rw [← hlen, hb]
      rfl
    · rfl
  | cons n ns ih =>
    intro idx wb k batch hlen hcols
    simp only [batchify_X_go, groupSizes]
    have hlen' : (List.zipWith (fun col c => col ++ [c.getD idx []]) batch raw).length
        = raw.length := by
      rw [List.length_zipWith, hlen, min_self]
    have hcols' : ∀ c' ∈ List.zipWith (fun col c => col ++ [c.getD idx []]) batch raw,
        c'.length = k + 1 :=
      length_mem_zipWith_append (fun c => c.getD idx []) batch raw k hcols
    split
    · simp only [List.map_cons]
      rw [rowsOf_map_padSeqs _ (k + 1) _ hcols',
        ih (idx + 1) 0 0 (raw.map fun _ => []) (by simp) (by simp)]
      intro hb
      apply hraw
      apply List.length_eq_zero.mp
      rw [← hlen', hb]
      rfl
    · exact ih (idx + 1) (wb + n) (k + 1) _ hlen' hcols'

theorem batchify_weights_go_rows {V P : Type} (p : Params) (htg : p.targets ≠ []) :
    ∀ (ts : List (Tree V P)) (wb k : ℕ) (batch : List (List WVal)),
      batch.length = p.targets.length → (∀ c ∈ batch, c.length = k) →
      (batchify_weights_go p ts wb batch).map rowsOf
        = groupSizes p.batch_size (treeLens ts) wb k := by
  intro ts
  induction ts with
  | nil =>
    intro wb k batch hlen hcols
    simp only [batchify_weights_go, treeLens, List.map_nil, groupSizes]
    split
    · cases batch with
      | nil => exact absurd (by simpa using hlen.symm) htg
      | cons c cs => simp [rowsOf, hcols c (List.mem_cons_self c cs)]
    · rfl
  | cons t ts ih =>
    intro wb k batch hlen hcols
    simp only [batchify_weights_go, treeLens, List.map_cons, groupSizes]
    have hlen' : (List.zipWith (fun col tg => col ++ [weightEntry p t tg]) batch p.targets).length
        = p.targets.length := by
      rw [List.length_zipWith, hlen, min_self]
    have hcols' : ∀ c' ∈ List.zipWith (fun col tg => col ++ [weightEntry p t tg]) batch p.targets,
        c'.length = k + 1 :=
      length_mem_zipWith_append (fun tg => weightEntry p t tg) batch p.targets k hcols
    split
    · simp only [List.map_cons]
      have hrec := ih 0 0 (p.targets.map fun _ => []) (by simp) (by simp)
      rw [hrec]
      cases hzb : List.zipWith (fun col tg => col ++ [weightEntry p t tg]) batch p.targets with
      | nil =>
        exfalso
        apply htg
        apply List.length_eq_zero.mp
        rw [← hlen', hzb]
        rfl
      | cons c cs =>
        simp [rowsOf, hcols' c (hzb ▸ List.mem_cons_self c cs), treeLens]
    · simpa [treeLens] using ih (wb + t.tokens.length) (k + 1) _ hlen' hcols'

theorem except_map_ok {ε α β : Type} {f : α → β} {x : Except ε α} {r : β}
    (h : x.map f = .ok r) : ∃ a, x = .ok a ∧ r = f a := by
  cases x with
  | error e => simp [Except.map] at h
  | ok a => exact ⟨a, rfl, by simpa [Except.map] using h.symm⟩

theorem length_to_categorical (classes : ℕ) (m : List (List ℕ)) :
    (to_categorical classes m).length = m.length := by
  simp [to_categorical]

/-- Elementwise behaviour of the encoding dispatch on success: position `j`
holds the `head` / pass-through / vocabulary-sized encoding of the `j`-th
padded column, by target name. -/
theorem encodeTargets_ok_spec (vocab : String → Option ℕ) :
    ∀ (pairs : List (String × List (List ℕ))) (r : List Encoded),
      encodeTargets vocab pairs = .ok r →
      r.length = pairs.length ∧
      ∀ (j : ℕ) (t : String) (m : List (List ℕ)),
        j < pairs.length → pairs.getD j ("", []) = (t, m) →
        ((t = "head" → r.getD j (.plain []) = .cat (to_categorical (shape1 m) m)) ∧
         (t ≠ "head" → (t = "feats" ∨ t = "sent") → r.getD j (.plain []) = .plain m) ∧
         (t ≠ "head" → ¬(t = "feats" ∨ t = "sent") →
           ∃ vs, vocab t = some vs ∧ r.getD j (.plain []) = .cat (to_categorical vs m))) := by
  intro pairs
  induction pairs with
  | nil =>
    intro r h
    simp only [encodeTargets] at h
    injection h with h'
    subst h'
    refine ⟨rfl, ?_⟩
    intro j t m hj
    simp at hj
  | cons pr rest ih =>
    intro r h
    obtain ⟨t0, m0⟩ := pr
    by_cases h1 : t0 = "head"
    · simp only [encodeTargets, h1, if_true] at h
      obtain ⟨r', hr', rfl⟩ := except_map_ok h
      obtain ⟨ihl, ihe⟩ := ih r' hr'
      refine ⟨by simp [ihl], ?_⟩
      intro j t m hj hget
      cases j with
      | zero =>
        simp only [List.getD_cons_zero] at hget
        injection hget with ht hm
        subst ht; subst hm
        exact ⟨fun _ => by simp [h1], fun hne => absurd h1 hne, fun hne _ => absurd h1 hne⟩
      | succ j' =>
        simp only [List.getD_cons_succ] at hget ⊢
        exact ihe j' t m (by simpa using hj) hget
    · by_cases h2 : t0 = "feats" ∨ t0 = "sent"
      · simp only [encodeTargets, h1, if_false, h2, if_true] at h
        obtain ⟨r', hr', rfl⟩ := except_map_ok h
        obtain ⟨ihl, ihe⟩ := ih r' hr'
        refine ⟨by simp [ihl], ?_⟩
        intro j t m hj hget
        cases j with
        | zero =>
          simp only [List.getD_cons_zero] at hget
          injection hget with ht hm
          subst ht; subst hm
          exact ⟨fun he => absurd he h1, fun _ _ => by simp, fun _ hne => absurd h2 hne⟩
        | succ j' =>
          simp only [List.getD_cons_succ] at hget ⊢
          exact ihe j' t m (by simpa using hj) hget
      · rcases hv : vocab t0 with _ | vs
        · simp only [encodeTargets, h1, if_false, h2, if_false, hv] at h
          exact Except.noConfusion h
        · simp only [encodeTargets, h1, if_false, h2, if_false, hv] at h
          obtain ⟨r', hr', rfl⟩ := except_map_ok h
          obtain ⟨ihl, ihe⟩ := ih r' hr'
          refine ⟨by simp [ihl], ?_⟩
          intro j t m hj hget
          cases j with
          | zero =>
            simp only [List.getD_cons_zero] at hget
            injection hget with ht hm
            subst ht; subst hm
            exact ⟨fun he => absurd he h1, fun _ h2' => absurd h2' h2,
              fun _ _ => ⟨vs, hv, by simp⟩⟩
          | succ j' =>
            simp only [List.getD_cons_succ] at hget ⊢
            exact ihe j' t m (by simpa using hj) hget

/-- Row count of a successfully encoded batch: the row count of its first
padded column. -/
theorem encodeTargets_ok_rows (vocab : String → Option ℕ)
    (t0 : String) (m0 : List (List ℕ)) (rest : List (String × List (List ℕ)))
    (r : List Encoded) (h : encodeTargets vocab ((t0, m0) :: rest) = .ok r) :
    rowsOfY r = m0.length := by
  obtain ⟨hl, he⟩ := encodeTargets_ok_spec vocab ((t0, m0) :: rest) r h
  have h0 := he 0 t0 m0 (by simp) (by simp)
  cases r with
  | nil => simp at hl
  | cons e r' =>
    simp only [List.getD_cons_zero] at h0
    by_cases h1 : t0 = "head"
    · rw [h0.1 h1]
      simp [rowsOfY, encRows, length_to_categorical]
    · by_cases h2 : t0 = "feats" ∨ t0 = "sent"
      · rw [h0.2.1 h1 h2]
        simp [rowsOfY, encRows]
      · obtain ⟨vs, _, hr⟩ := h0.2.2 h1 h2
        rw [hr]
        simp [rowsOfY, encRows, length_to_categorical]

theorem batchify_y_go_rows (p : Params) (vocab : String → Option ℕ)
    (raw : List (List (List ℕ))) (hraw : raw ≠ []) (htg : p.targets ≠ []) :
    ∀ (ns : List ℕ) (idx wb k : ℕ) (batch : List (List (List ℕ))) (out : List (List Encoded)),
      batch.length = raw.length → (∀ c ∈ batch, c.length = k) →
      batchify_y_go p vocab raw ns idx wb batch = .ok out →
      out.map rowsOfY = groupSizes p.batch_size ns wb k := by
  intro ns
  induction ns with
  | nil =>
    intro idx wb k batch out hlen hcols h
    simp only [batchify_y_go, groupSizes]
    simp only [batchify_y_go] at h
    by_cases h0 : 0 < wb
    · rw [if_pos h0] at h
      rw [if_pos h0]
      obtain ⟨b, hok, rfl⟩ := except_map_ok h
      cases batch with
      | nil =>
        exfalso
        apply hraw
        apply List.length_eq_zero.mp
        rw [← hlen]
        rfl
      | cons c cs =>
        cases htgt : p.targets with
        | nil => exact absurd htgt htg
        | cons t0 ts =>
          rw [htgt] at hok
          simp only [List.map_cons, List.zip_cons_cons] at hok
          have hrows := encodeTargets_ok_rows vocab t0 (padSeqs c) (ts.zip (cs.map padSeqs)) b hok
          simp only [List.map_cons, List.map_nil]
          rw [hrows]
          simp [padSeqs, hcols c (List.mem_cons_self c cs)]
    · rw [if_neg h0] at h
      rw [if_neg h0]
      injection h with h'
      subst h'
      rfl
  | cons n ns ih =>
    intro idx wb k batch out hlen hcols h
    simp only [batchify_y_go] at h
    simp only [groupSizes]
    have hlen' : (List.zipWith (fun col c => col ++ [c.getD idx []]) batch raw).length
        = raw.length := by
      rw [List.length_zipWith, hlen, min_self]
    have hcols' : ∀ c' ∈ List.zipWith (fun col c => col ++ [c.getD idx []]) batch raw,
        c'.length = k + 1 :=
      length_mem_zipWith_append (fun c => c.getD idx []) batch raw k hcols
    by_cases hc : p.batch_size < wb + n
    · rw [if_pos hc] at h
      rw [if_pos hc]
      split at h
      next e henc => exact Except.noConfusion h
      next b henc =>
        obtain ⟨r', hrec, rfl⟩ := except_map_ok h
        simp only [List.map_cons]
        rw [ih (idx + 1) 0 0 (raw.map fun _ => []) r' (by simp) (by simp) hrec]
        cases hzb : List.zipWith (fun col c => col ++ [c.getD idx []]) batch raw with
        | nil =>
          exfalso
          apply hraw
          apply List.length_eq_zero.mp
          rw [← hlen', hzb]
          rfl
        | cons c cs =>
          cases htgt : p.targets with
          | nil => exact absurd htgt htg
          | cons t0 ts =>
            rw [hzb, htgt] at henc
            simp only [List.map_cons, List.zip_cons_cons] at henc
            have hrows := encodeTargets_ok_rows vocab t0 (padSeqs c) (ts.zip (cs.map padSeqs)) b henc
            rw [hrows]
            simp [padSeqs, hcols' c (hzb ▸ List.mem_cons_self c cs)]
    · rw [if_neg hc] at h
      rw [if_neg hc]
      exact ih (idx + 1) (wb + n) (k + 1) _ out hlen' hcols' h

/-- Summing the shared partition's group sizes recovers the number of trees,
provided every tree has at least one token. -/
theorem groupSizes_sum (bs : ℕ) :
    ∀ (ns : List ℕ) (wb k : ℕ), (∀ n ∈ ns, 0 < n) → (wb = 0 → k = 0) →
      (groupSizes bs ns wb k).sum = k + ns.length := by
  intro ns
  induction ns with
  | nil =>
    intro wb k _ hw
    simp only [groupSizes]
    split
    · simp
    · simp [hw (by omega)]
  | cons n ns ih =>
    intro wb k h hw
    simp only [groupSizes]
    split
    · rw [List.sum_cons, ih 0 0 (fun x hx => h x (List.mem_cons_of_mem n hx)) (fun _ => rfl)]
      simp only [List.length_cons]
      omega
    · rw [ih (wb + n) (k + 1) (fun x hx => h x (List.mem_cons_of_mem n hx))
        (fun h0 => absurd h0 (by have := h n (List.mem_cons_self n ns); omega))]
      simp only [List.length_cons]
      omega

/-- The group sizes never cover more rows than there are trees. -/
theorem groupSizes_sum_le (bs : ℕ) :
    ∀ (ns : List ℕ) (wb k : ℕ), (groupSizes bs ns wb k).sum ≤ k + ns.length := by
  intro ns
  induction ns with
  | nil =>
    intro wb k
    simp only [groupSizes]
    split
    · simp
    · simp
  | cons n ns ih =>
    intro wb k
    simp only [groupSizes]
    split
    · have := ih 0 0
      simp only [List.sum_cons, List.length_cons]
      omega
    · have := ih (wb + n) (k + 1)
      simp only [List.length_cons]
      omega

/-! Concrete example inputs used by counterexamples and witnesses. -/

/-- A tree with identifier `i`, `n` fieldless tokens, no words and no
comments. -/
def mkTree (i n : ℕ) : Tree ℕ ℕ :=
  { id := i, tokens := List.replicate n ⟨[]⟩, words := [], comments := [] }

/-- Example configuration: word budget 8, one `head` target, no partial
supervision. -/
def pEx8 : Params :=
  { batch_size := 8, targets := ["head"], train_part := false,
    full_tree := "# full", part_tree := "# part", save_probs := false }

/-- C1: the spec scenario is wrong about the code: with sorted token lengths
[2, 3, 10] and batch_size 8 the loop appends the length-10 tree BEFORE testing
the threshold (parser.py lines 59-69), so the crossing tree lands inside the
batch it closes and the pass emits one batch of row count 3, not two batches
of row counts [2, 1]. -/
theorem claim_C1_counterexample :
    (batchify_X pEx8 [[[0], [0], [0]]]
      (sortByTokens [mkTree 0 2, mkTree 1 10, mkTree 2 3])).map rowsOf ≠ [2, 1] := by
  decide

/-- C1 (amended): 3 trees of lengths [2, 10, 3] with batch_size 8 are sorted
ascending to [2, 3, 10] (the sort is done by `fit`/`predict` before the
batching pass, parser.py lines 167 and 196) and batched into exactly one
batch of row count 3: the running sum first exceeds 8 at the third tree,
which is included in the batch it closes, and no remainder is left. -/
theorem claim_C1_theorem :
    (sortByTokens [mkTree 0 2, mkTree 1 10, mkTree 2 3]).map (fun t => t.tokens.length)
      = [2, 3, 10]
    ∧ (batchify_X pEx8 [[[0], [0], [0]]]
        (sortByTokens [mkTree 0 2, mkTree 1 10, mkTree 2 3])).map rowsOf = [3] := by
  decide

/-- C2: the claim fails for a tree with zero tokens: a trailing batch is only
emitted when `words_batch > 0` (parser.py lines 71, 107, 160), so a tree set
whose trailing trees carry no tokens is dropped from every pass and the row
counts sum to 0, not to the tree-set size 1. -/
theorem claim_C2_counterexample :
    ((batchify_X pEx8 [[[]]] [mkTree 7 0]).map rowsOf).sum = 0
    ∧ batchify_y pEx8 (fun _ => some 5) [[[]]] [mkTree 7 0] = .ok []
    ∧ ((batchify_weights pEx8 [mkTree 7 0]).map rowsOf).sum = 0
    ∧ ([mkTree 7 0] : List (Tree ℕ ℕ)).length = 1
    ∧ (0 : ℕ) ≠ 1 :=
  ⟨by decide, rfl, by decide, rfl, by decide⟩

/-- C2 (amended): provided every tree has at least one token (and each pass
has at least one column to observe row counts on), the row counts of the
emitted batches of all three passes sum to the tree-set size: no tree is
dropped and any non-empty remainder is emitted as a final batch. -/
theorem claim_C2_theorem {V P : Type} (p : Params) (vocab : String → Option ℕ)
    (raw rawY : List (List (List ℕ))) (trees : List (Tree V P))
    (htok : ∀ t ∈ trees, t.tokens.length ≠ 0)
    (hX : raw ≠ []) (hY : rawY ≠ []) (htg : p.targets ≠ []) :
    ((batchify_X p raw trees).map rowsOf).sum = trees.length
    ∧ (∀ out, batchify_y p vocab rawY trees = .ok out →
        (out.map rowsOfY).sum = trees.length)
    ∧ ((batchify_weights p trees).map rowsOf).sum = trees.length := by
  have hlens : ∀ n ∈ treeLens trees, 0 < n := by
    intro n hn
    simp only [treeLens, List.mem_map] at hn
    obtain ⟨t, ht, rfl⟩ := hn
    exact Nat.pos_of_ne_zero (htok t ht)
  have hsum := groupSizes_sum p.batch_size (treeLens trees) 0 0 hlens (fun _ => rfl)
  have hlen : (treeLens trees).length = trees.length := List.length_map _ _
  refine ⟨?_, ?_, ?_⟩
  · rw [batchify_X,
      batchify_X_go_rows p.batch_size raw hX (treeLens trees) 0 0 0 _ (by simp) (by simp),
      hsum, hlen]
    omega
  · intro out hok
    rw [batchify_y] at hok
    rw [batchify_y_go_rows p vocab rawY hY htg (treeLens trees) 0 0 0 _ out
      (by simp) (by simp) hok, hsum, hlen]
    omega
  · rw [batchify_weights,
      batchify_weights_go_rows p htg trees 0 0 _ (by simp) (by simp), hsum, hlen]
    omega

theorem claim_C2_witness :
    ((batchify_X pEx8 [[[5], [6, 6]]] [mkTree 0 1, mkTree 1 2]).map rowsOf).sum = 2
    ∧ (∀ out, batchify_y pEx8 (fun _ => some 4) [[[5], [6, 6]]] [mkTree 0 1, mkTree 1 2]
        = .ok out → (out.map rowsOfY).sum = 2)
    ∧ ((batchify_weights pEx8 [mkTree 0 1, mkTree 1 2]).map rowsOf).sum = 2 := by
  have h := claim_C2_theorem pEx8 (fun _ => some 4) [[[5], [6, 6]]] [[[5], [6, 6]]]
    [mkTree 0 1, mkTree 1 2] (by decide) (by decide) (by decide) (by decide)
  simpa using h

/-- C3: the three batching passes emit batches with identical row-count
sequences over the same tree list, namely the group sizes of the shared
word-count-threshold partition `groupSizes`; since all passes consume the
trees in the same order, equal row counts mean the k-th batch of each pass
covers the same contiguous range of trees. -/
theorem claim_C3_theorem {V P : Type} (p : Params) (vocab : String → Option ℕ)
    (raw rawY : List (List (List ℕ))) (trees : List (Tree V P))
    (hX : raw ≠ []) (hY : rawY ≠ []) (htg : p.targets ≠ []) :
    (batchify_X p raw trees).map rowsOf = groupSizes p.batch_size (treeLens trees) 0 0
    ∧ (batchify_weights p trees).map rowsOf = (batchify_X p raw trees).map rowsOf
    ∧ ∀ out, batchify_y p vocab rawY trees = .ok out →
        out.map rowsOfY = (batchify_X p raw trees).map rowsOf := by
  have hx := batchify_X_go_rows p.batch_size raw hX (treeLens trees) 0 0 0
    (raw.map fun _ => []) (by simp) (by simp)
  have hw := batchify_weights_go_rows p htg trees 0 0
    (p.targets.map fun _ => []) (by simp) (by simp)
  refine ⟨hx, ?_, ?_⟩
  · rw [batchify_weights, hw, batchify_X, hx]
  · intro out hok
    rw [batchify_y] at hok
    rw [batchify_y_go_rows p vocab rawY hY htg (treeLens trees) 0 0 0 _ out
      (by simp) (by simp) hok, batchify_X, hx]

theorem claim_C3_witness :
    (batchify_X pEx8 [[[5], [6, 6]]] [mkTree 0 1, mkTree 1 2]).map rowsOf
      = groupSizes pEx8.batch_size (treeLens [mkTree 0 1, mkTree 1 2]) 0 0
    ∧ (batchify_weights pEx8 [mkTree 0 1, mkTree 1 2]).map rowsOf
      = (batchify_X pEx8 [[[5], [6, 6]]] [mkTree 0 1, mkTree 1 2]).map rowsOf
    ∧ ∀ out, batchify_y pEx8 (fun _ => some 4) [[[5], [6, 6]]] [mkTree 0 1, mkTree 1 2]
        = .ok out →
        out.map rowsOfY = (batchify_X pEx8 [[[5], [6, 6]]] [mkTree 0 1, mkTree 1 2]).map rowsOf :=
  claim_C3_theorem pEx8 (fun _ => some 4) [[[5], [6, 6]]] [[[5], [6, 6]]]
    [mkTree 0 1, mkTree 1 2] (by decide) (by decide) (by decide)

/-! Weighting-policy lemmas. -/

theorem zipWith_append_self {α β : Type} (g : β → α) (l : List β) :
    List.zipWith (fun col y => col ++ [g y]) (l.map fun _ => ([] : List α)) l
      = l.map (fun y => [g y]) := by
  induction l with
  | nil => rfl
  | cons y ys ih => simp only [List.map_cons, List.zipWith, ih, List.nil_append]

/-- A single tree with at least one token always forms exactly one weights
batch, whose columns hold one entry each. -/
theorem batchify_weights_single {V P : Type} (p : Params) (t : Tree V P)
    (h : 0 < t.tokens.length) :
    batchify_weights p [t] = [p.targets.map fun tg => [weightEntry p t tg]] := by
  simp only [batchify_weights, batchify_weights_go]
  rw [zipWith_append_self (weightEntry p t) p.targets]
  split
  · simp [batchify_weights_go]
  · simp [batchify_weights_go, h]

/-- Every target the tier logic can supervise is one of the seven recognized
names. -/
theorem supervisedTargets_subset {V P : Type} (p : Params) (t : Tree V P) :
    ∀ x ∈ supervisedTargets p t, x ∈ recognizedTargets := by
  intro x hx
  simp only [supervisedTargets] at hx
  split at hx
  · simpa [recognizedTargets] using hx
  · split at hx
    · simp only [List.mem_cons, List.not_mem_nil, or_false] at hx
      rcases hx with rfl | rfl | rfl | rfl <;> simp [recognizedTargets]
    · simp at hx

/-- C4: the per-target weight table of `batchify_weights`, read off a
single-tree batch: full supervision (partial training off, or the full-tree
marker present) weights all seven recognized targets with `log n`; the
partial-tree marker weights exactly lemma/upostag/xpostag/feats with `log n`;
otherwise every target gets the negligible constant.  `WVal.logTokens n`
denotes `np.log(n)`, i.e. `Real.log n`, and `WVal.negligible` denotes
`1e-9`. -/
theorem claim_C4_theorem {V P : Type} (p : Params) (t : Tree V P)
    (h : 0 < t.tokens.length) :
    batchify_weights p [t] = [p.targets.map fun tg =>
      [if ¬ p.train_part ∨ p.full_tree ∈ t.comments then
        (if tg ∈ ["head", "deprel", "lemma", "upostag", "xpostag", "feats", "semrel"]
          then WVal.logTokens t.tokens.length else WVal.negligible)
      else if p.part_tree ∈ t.comments then
        (if tg ∈ ["lemma", "upostag", "xpostag", "feats"]
          then WVal.logTokens t.tokens.length else WVal.negligible)
      else WVal.negligible]] := by
  rw [batchify_weights_single p t h]
  congr 1
  apply List.map_congr_left
  intro tg _
  simp only [weightEntry, supervisedTargets]
  split_ifs <;> simp_all

/-- Configuration with partial training on, all seven targets, and a full-tree
marker string. -/
def pFull : Params :=
  { batch_size := 8, targets := recognizedTargets, train_part := true,
    full_tree := "# full", part_tree := "# part", save_probs := false }

/-- A 5-token tree carrying the full-tree marker. -/
def tFull5 : Tree ℕ ℕ :=
  { id := 3, tokens := List.replicate 5 ⟨[]⟩, words := [], comments := ["# full"] }

theorem claim_C4_witness :
    batchify_weights pFull [tFull5] = [recognizedTargets.map fun _ => [WVal.logTokens 5]] := by
  have h := claim_C4_theorem pFull tFull5 (by decide)
  rw [h]
  decide

/-- A 1-token tree carrying the full-tree marker. -/
def tFull1 : Tree ℕ ℕ :=
  { id := 0, tokens := [⟨[]⟩], words := [], comments := ["# full"] }

/-- C10: a tree with exactly one token gets base weight `np.log(1)`, so under
full supervision every recognized target's weight is `log 1 = 0` - strictly
below the negligible constant `1e-9` that marks unsupervised targets. -/
theorem claim_C10_theorem {V P : Type} (p : Params) (t : Tree V P)
    (h1 : t.tokens.length = 1) (h2 : ¬ p.train_part ∨ p.full_tree ∈ t.comments) :
    batchify_weights p [t]
      = [p.targets.map fun tg =>
          [if tg ∈ recognizedTargets then WVal.logTokens 1 else WVal.negligible]]
    ∧ Real.log 1 = 0 ∧ (0 : ℝ) < 1e-9 := by
  refine ⟨?_, Real.log_one, by norm_num⟩
  rw [batchify_weights_single p t (by omega)]
  congr 1
  apply List.map_congr_left
  intro tg _
  simp only [weightEntry, supervisedTargets, if_pos h2, h1, recognizedTargets]

theorem claim_C10_witness :
    batchify_weights pFull [tFull1]
      = [pFull.targets.map fun tg =>
          [if tg ∈ recognizedTargets then WVal.logTokens 1 else WVal.negligible]]
    ∧ Real.log 1 = 0 ∧ (0 : ℝ) < 1e-9 :=
  claim_C10_theorem pFull tFull1 (by decide) (by decide)

/-! Unknown-target behaviour. -/

theorem getD_zipWith_append {α β : Type} (g : β → α) (d : β) :
    ∀ (cols : List (List α)) (ys : List β) (j : ℕ), j < cols.length → j < ys.length →
      (List.zipWith (fun col y => col ++ [g y]) cols ys).getD j []
        = cols.getD j [] ++ [g (ys.getD j d)] := by
  intro cols
  induction cols with
  | nil => intro ys j hj; simp at hj
  | cons c cs ih =>
    intro ys j hj hy
    cases ys with
    | nil => simp at hy
    | cons y ys' =>
      cases j with
      | zero => simp [List.zipWith]
      | succ j' =>
        simp only [List.zipWith, List.getD_cons_succ]
        exact ih ys' j' (by simpa using hj) (by simpa using hy)

theorem getD_map_nil {α β : Type} :
    ∀ (l : List α) (j : ℕ), (l.map fun _ => ([] : List β)).getD j [] = [] := by
  intro l
  induction l with
  | nil => intro j; simp
  | cons a l ih =>
    intro j
    cases j with
    | zero => rfl
    | succ j' => exact ih j'

theorem batchify_weights_go_unknown {V P : Type} (p : Params) (j : ℕ)
    (hj : j < p.targets.length) (hunk : p.targets.getD j "" ∉ recognizedTargets) :
    ∀ (ts : List (Tree V P)) (wb : ℕ) (batch : List (List WVal)),
      batch.length = p.targets.length →
      (∀ w ∈ batch.getD j [], w = WVal.negligible) →
      ∀ b ∈ batchify_weights_go p ts wb batch, ∀ w ∈ b.getD j [], w = WVal.negligible := by
  intro ts
  induction ts with
  | nil =>
    intro wb batch hlen hinv b hb
    simp only [batchify_weights_go] at hb
    split at hb
    · rw [List.mem_singleton] at hb
      subst hb
      exact hinv
    · simp at hb
  | cons t ts ih =>
    intro wb batch hlen hinv b hb
    have hent : weightEntry p t (p.targets.getD j "") = WVal.negligible := by
      apply if_neg
      intro hm
      exact hunk (supervisedTargets_subset p t _ hm)
    have hinv' : ∀ w ∈ (List.zipWith (fun col tg => col ++ [weightEntry p t tg])
        batch p.targets).getD j [], w = WVal.negligible := by
      rw [getD_zipWith_append (weightEntry p t) "" batch p.targets j (hlen ▸ hj) hj]
      intro w hw
      rcases List.mem_append.mp hw with hw | hw
      · exact hinv w hw
      · rw [List.mem_singleton] at hw
        rw [hw, hent]
    have hlen' : (List.zipWith (fun col tg => col ++ [weightEntry p t tg])
        batch p.targets).length = p.targets.length := by
      rw [List.length_zipWith, hlen, min_self]
    simp only [batchify_weights_go] at hb
    split at hb
    · rw [List.mem_cons] at hb
      rcases hb with rfl | hb
      · exact hinv'
      · refine ih 0 (p.targets.map fun _ => []) (by simp) ?_ b hb
        rw [getD_map_nil]
        intro w hw
        simp at hw
    · exact ih (wb + t.tokens.length) _ hlen' hinv' b hb

/-- Configuration whose single target name is unknown to the weighting policy
and to the target encoders. -/
def pBogus : Params :=
  { batch_size := 0, targets := ["bogus"], train_part := true,
    full_tree := "# full", part_tree := "# part", save_probs := false }

/-- C6: the weighting policy does NOT fail fast on an unknown target name: it
completes and emits a batch, assigning the negligible constant to the unknown
target's column. -/
theorem claim_C6_counterexample :
    batchify_weights pBogus [mkTree 0 1] = [[[WVal.negligible]]]
    ∧ batchify_weights pBogus [mkTree 0 1] ≠ [] := by
  decide

/-- C6 (amended): an unknown target name in the configured target list is not
validated before batching.  `batchify_weights` completes normally and assigns
the negligible weight to every entry of the unknown target's column, while
`batchify_y` aborts with the failed dictionary lookup only when it encodes the
first emitted batch (shown at a concrete input). -/
theorem claim_C6_theorem {V P : Type} (p : Params) (trees : List (Tree V P)) (j : ℕ)
    (hj : j < p.targets.length) (hunk : p.targets.getD j "" ∉ recognizedTargets) :
    (∀ b ∈ batchify_weights p trees, ∀ w ∈ b.getD j [], w = WVal.negligible)
    ∧ batchify_y pBogus (fun _ => none) [[[0]]] [mkTree 0 1] = .error "bogus" := by
  refine ⟨?_, rfl⟩
  intro b hb
  refine batchify_weights_go_unknown p j hj hunk trees 0 (p.targets.map fun _ => [])
    (by simp) ?_ b hb
  rw [getD_map_nil]
  intro w hw
  simp at hw

theorem claim_C6_witness :
    (∀ b ∈ batchify_weights pBogus [mkTree 0 1], ∀ w ∈ b.getD 0 [], w = WVal.negligible)
    ∧ batchify_y pBogus (fun _ => none) [[[0]]] [mkTree 0 1] = .error "bogus" :=
  claim_C6_theorem pBogus [mkTree 0 1] 0 (by decide) (by decide)

/-! Encoding-dispatch lemmas for the target batches. -/

theorem le_maxRowLen (xs : List (List ℕ)) : ∀ x ∈ xs, x.length ≤ maxRowLen xs := by
  induction xs with
  | nil => intro x hx; simp at hx
  | cons y ys ih =>
    intro x hx
    rcases List.mem_cons.mp hx with rfl | hx
    · simp only [maxRowLen, List.map_cons, List.foldr_cons]
      exact le_max_left _ _
    · simp only [maxRowLen, List.map_cons, List.foldr_cons]
      exact le_trans (ih x hx) (le_max_right _ _)

theorem mem_padSeqs_length (col : List (List ℕ)) :
    ∀ r ∈ padSeqs col, r.length = maxRowLen col := by
  intro r hr
  simp only [padSeqs, List.mem_map] at hr
  obtain ⟨x, hx, rfl⟩ := hr
  have hle := le_maxRowLen col x hx
  simp only [padTo, List.length_append, List.length_replicate]
  omega

/-- Every row of a padded column has the column's common `shape[1]` length. -/
theorem padSeqs_isPadded (col : List (List ℕ)) :
    ∀ r ∈ padSeqs col, r.length = shape1 (padSeqs col) := by
  cases col with
  | nil => intro r hr; simp [padSeqs] at hr
  | cons c cs =>
    intro r hr
    rw [mem_padSeqs_length _ r hr]
    have hhead : (padTo (maxRowLen (c :: cs)) c).length = maxRowLen (c :: cs) :=
      mem_padSeqs_length (c :: cs) _ (by simp [padSeqs])
    have hs : shape1 (padSeqs (c :: cs)) = (padTo (maxRowLen (c :: cs)) c).length := by
      simp [padSeqs, shape1]
    rw [hs, hhead]

theorem to_categorical_vec_length (classes : ℕ) (m : List (List ℕ)) :
    ∀ row ∈ to_categorical classes m, ∀ vec ∈ row, vec.length = classes := by
  intro row hrow vec hvec
  simp only [to_categorical, List.mem_map] at hrow
  obtain ⟨orig, _, rfl⟩ := hrow
  simp only [List.mem_map] at hvec
  obtain ⟨v, _, rfl⟩ := hvec
  simp

theorem to_categorical_row_length (classes : ℕ) (m : List (List ℕ)) :
    ∀ row ∈ to_categorical classes m, ∃ orig ∈ m, row.length = orig.length := by
  intro row hrow
  simp only [to_categorical, List.mem_map] at hrow
  obtain ⟨orig, ho, rfl⟩ := hrow
  exact ⟨orig, ho, by simp⟩

/-- Every batch an ok `batchify_y` run emits is the encoding dispatch applied
to the per-column padding of some accumulated column list. -/
theorem batchify_y_go_batches (p : Params) (vocab : String → Option ℕ)
    (raw : List (List (List ℕ))) :
    ∀ (ns : List ℕ) (idx wb : ℕ) (batch : List (List (List ℕ))) (out : List (List Encoded)),
      batchify_y_go p vocab raw ns idx wb batch = .ok out →
      ∀ b ∈ out, ∃ cols : List (List (List ℕ)),
        encodeTargets vocab (p.targets.zip (cols.map padSeqs)) = .ok b := by
  intro ns
  induction ns with
  | nil =>
    intro idx wb batch out h b hb
    simp only [batchify_y_go] at h
    split at h
    · obtain ⟨b', hok, rfl⟩ := except_map_ok h
      rw [List.mem_singleton] at hb
      subst hb
      exact ⟨batch, hok⟩
    · injection h with h'
      subst h'
      simp at hb
  | cons n ns ih =>
    intro idx wb batch out h b hb
    simp only [batchify_y_go] at h
    split at h
    · split at h
      next e henc => exact Except.noConfusion h
      next b0 henc =>
        obtain ⟨r', hrec, rfl⟩ := except_map_ok h
        rw [List.mem_cons] at hb
        rcases hb with rfl | hb
        · exact ⟨_, henc⟩
        · exact ih _ _ _ r' hrec b hb
    · exact ih _ _ _ out h b hb

theorem getD_zip {α β : Type} (d1 : α) (d2 : β) :
    ∀ (l1 : List α) (l2 : List β) (j : ℕ), j < (l1.zip l2).length →
      (l1.zip l2).getD j (d1, d2) = (l1.getD j d1, l2.getD j d2) := by
  intro l1
  induction l1 with
  | nil => intro l2 j h; simp at h
  | cons a l1 ih =>
    intro l2 j h
    cases l2 with
    | nil => simp at h
    | cons b l2 =>
      cases j with
      | zero => rfl
      | succ j' =>
        simp only [List.zip_cons_cons, List.length_cons] at h
        simp only [List.zip_cons_cons, List.getD_cons_succ]
        exact ih l2 j' (by omega)

theorem getD_map {α β : Type} (f : α → β) (d : α) :
    ∀ (l : List α) (j : ℕ), (l.map f).getD j (f d) = f (l.getD j d) := by
  intro l
  induction l with
  | nil => intro j; simp
  | cons a l ih =>
    intro j
    cases j with
    | zero => rfl
    | succ j' => exact ih j'

/-- C5: in every emitted target batch, the column of a target named `head` is
one-hot encoded with class count equal to that batch's own padded sequence
length (every row and every one-hot vector share the same length `L`);
`feats` and `sent` columns are passed through as plain padded 2-D columns;
every other target is one-hot encoded with class count equal to that target's
encoder vocabulary size. -/
theorem claim_C5_theorem {V P : Type} (p : Params) (vocab : String → Option ℕ)
    (raw : List (List (List ℕ))) (trees : List (Tree V P))
    (out : List (List Encoded)) (hok : batchify_y p vocab raw trees = .ok out) :
    ∀ b ∈ out, ∀ j : ℕ, j < b.length →
      (p.targets.getD j "" = "head" →
        ∃ m L, b.getD j (.plain []) = .cat m
          ∧ (∀ row ∈ m, row.length = L)
          ∧ (∀ row ∈ m, ∀ vec ∈ row, vec.length = L))
      ∧ (p.targets.getD j "" ≠ "head" →
          (p.targets.getD j "" = "feats" ∨ p.targets.getD j "" = "sent") →
          ∃ m, b.getD j (.plain []) = .plain m ∧ ∀ row ∈ m, row.length = shape1 m)
      ∧ (p.targets.getD j "" ≠ "head" →
          ¬(p.targets.getD j "" = "feats" ∨ p.targets.getD j "" = "sent") →
          ∃ vs m, vocab (p.targets.getD j "") = some vs
            ∧ b.getD j (.plain []) = .cat m
            ∧ ∀ row ∈ m, ∀ vec ∈ row, vec.length = vs) := by
  intro b hb j hj
  rw [batchify_y] at hok
  obtain ⟨cols, hcols⟩ := batchify_y_go_batches p vocab raw (treeLens trees) 0 0 _ out hok b hb
  obtain ⟨hblen, hspec⟩ := encodeTargets_ok_spec vocab _ b hcols
  have hjp : j < (p.targets.zip (cols.map padSeqs)).length := by omega
  have hget : (p.targets.zip (cols.map padSeqs)).getD j ("", [])
      = (p.targets.getD j "", padSeqs (cols.getD j [])) := by
    rw [getD_zip "" [] p.targets (cols.map padSeqs) j hjp]
    have hmap := getD_map padSeqs [] cols j
    have hnil : padSeqs ([] : List (List ℕ)) = [] := rfl
    rw [hnil] at hmap
    rw [hmap]
  have h0 := hspec j (p.targets.getD j "") (padSeqs (cols.getD j [])) hjp hget
  have hpad := padSeqs_isPadded (cols.getD j [])
  refine ⟨?_, ?_, ?_⟩
  · intro hh
    refine ⟨to_categorical (shape1 (padSeqs (cols.getD j []))) (padSeqs (cols.getD j [])),
      shape1 (padSeqs (cols.getD j [])), h0.1 hh, ?_, ?_⟩
    · intro row hrow
      obtain ⟨orig, ho, hlen⟩ := to_categorical_row_length _ _ row hrow
      rw [hlen]
      exact hpad orig ho
    · exact to_categorical_vec_length _ _
  · intro hh1 hh2
    exact ⟨padSeqs (cols.getD j []), h0.2.1 hh1 hh2, hpad⟩
  · intro hh1 hh2
    obtain ⟨vs, hvs, hr⟩ := h0.2.2 hh1 hh2
    exact ⟨vs, to_categorical vs (padSeqs (cols.getD j [])), hvs, hr,
      to_categorical_vec_length _ _⟩

/-- Configuration for the encoding-dispatch example: word budget 1, single
`head` target. -/
def pY : Params :=
  { batch_size := 1, targets := ["head"], train_part := false,
    full_tree := "# full", part_tree := "# part", save_probs := false }

/-- Example tree list for the encoding dispatch: two 1-token trees and one
2-token tree, giving two batches with padded lengths 1 and 2. -/
def treesY : List (Tree ℕ ℕ) := [mkTree 0 1, mkTree 1 1, mkTree 2 2]

/-- Raw head column for `treesY`. -/
def rawYc : List (List (List ℕ)) := [[[0], [0], [1, 0]]]

/-- The two target batches `batchify_y` emits on the example. -/
def outY : List (List Encoded) :=
  match batchify_y pY (fun _ => none) rawYc treesY with
  | .ok o => o
  | .error _ => []

theorem claim_C5_witness :
    ((pY.targets.getD 0 "" = "head" →
        ∃ m L, (outY.getD 0 []).getD 0 (.plain []) = .cat m
          ∧ (∀ row ∈ m, row.length = L)
          ∧ (∀ row ∈ m, ∀ vec ∈ row, vec.length = L))
      ∧ (pY.targets.getD 0 "" ≠ "head" →
          (pY.targets.getD 0 "" = "feats" ∨ pY.targets.getD 0 "" = "sent") →
          ∃ m, (outY.getD 0 []).getD 0 (.plain []) = .plain m
            ∧ ∀ row ∈ m, row.length = shape1 m)
      ∧ (pY.targets.getD 0 "" ≠ "head" →
          ¬(pY.targets.getD 0 "" = "feats" ∨ pY.targets.getD 0 "" = "sent") →
          ∃ vs m, (fun _ => (none : Option ℕ)) (pY.targets.getD 0 "") = some vs
            ∧ (outY.getD 0 []).getD 0 (.plain []) = .cat m
            ∧ ∀ row ∈ m, ∀ vec ∈ row, vec.length = vs))
    ∧ ((pY.targets.getD 0 "" = "head" →
        ∃ m L, (outY.getD 1 []).getD 0 (.plain []) = .cat m
          ∧ (∀ row ∈ m, row.length = L)
          ∧ (∀ row ∈ m, ∀ vec ∈ row, vec.length = L))
      ∧ (pY.targets.getD 0 "" ≠ "head" →
          (pY.targets.getD 0 "" = "feats" ∨ pY.targets.getD 0 "" = "sent") →
          ∃ m, (outY.getD 1 []).getD 0 (.plain []) = .plain m
            ∧ ∀ row ∈ m, row.length = shape1 m)
      ∧ (pY.targets.getD 0 "" ≠ "head" →
          ¬(pY.targets.getD 0 "" = "feats" ∨ pY.targets.getD 0 "" = "sent") →
          ∃ vs m, (fun _ => (none : Option ℕ)) (pY.targets.getD 0 "") = some vs
            ∧ (outY.getD 1 []).getD 0 (.plain []) = .cat m
            ∧ ∀ row ∈ m, ∀ vec ∈ row, vec.length = vs)) :=
  ⟨claim_C5_theorem pY (fun _ => none) rawYc treesY outY rfl
      (outY.getD 0 []) (by decide) 0 (by decide),
    claim_C5_theorem pY (fun _ => none) rawYc treesY outY rfl
      (outY.getD 1 []) (by decide) 0 (by decide)⟩

/-! Slice alignment in `predict`. -/

/-- Total row count of the batches preceding batch `k`: the value `tree_idx`
holds when batch `k` is processed (it advances by one per reassembled row). -/
def cumRows (bs : List (List (List (List ℕ)))) (k : ℕ) : ℕ :=
  ((bs.take k).map rowsOf).sum

theorem sum_take_le (l : List ℕ) (k : ℕ) : (l.take k).sum ≤ l.sum := by
  conv_rhs => rw [← List.take_append_drop k l]
  rw [List.sum_append]
  omega

/-- C7 is wrong about the mechanism: `predict` contains no assertion; its
slice (parser.py line 201) silently truncates at the end of the list, shown
here at a concrete mismatched request of 2 rows from 1 remaining tree. -/
theorem claim_C7_counterexample :
    (batchSlice ([mkTree 0 1] : List (Tree ℕ ℕ)) 0 2).length = 1 ∧ (1 : ℕ) ≠ 2 := by
  decide

/-- C7 (amended): in `predict`, the number of trees sliced for every batch
always equals that batch's row count, because the batches are computed from
the same sorted tree list, so a mismatch cannot arise; but there is no
assertion - the slice's general behaviour is silent truncation
(`length = min rows (remaining)`). -/
theorem claim_C7_theorem {V P : Type} (p : Params) (raw : List (List (List ℕ)))
    (trees0 : List (Tree V P)) (hX : raw ≠ []) :
    (∀ k : ℕ, k < (batchify_X p raw (sortByTokens trees0)).length →
      (batchSlice (sortByTokens trees0)
          (cumRows (batchify_X p raw (sortByTokens trees0)) k)
          (rowsOf ((batchify_X p raw (sortByTokens trees0)).getD k []))).length
        = rowsOf ((batchify_X p raw (sortByTokens trees0)).getD k []))
    ∧ ∀ (trees : List (Tree V P)) (idx rows : ℕ),
        (batchSlice trees idx rows).length = min rows (trees.length - idx) := by
  constructor
  · intro k hk
    have hrows : (batchify_X p raw (sortByTokens trees0)).map rowsOf
        = groupSizes p.batch_size (treeLens (sortByTokens trees0)) 0 0 :=
      batchify_X_go_rows p.batch_size raw hX (treeLens (sortByTokens trees0)) 0 0 0
        (raw.map fun _ => []) (by simp) (by simp)
    have hsumle : ((batchify_X p raw (sortByTokens trees0)).map rowsOf).sum
        ≤ (sortByTokens trees0).length := by
      rw [hrows]
      have h := groupSizes_sum_le p.batch_size (treeLens (sortByTokens trees0)) 0 0
      simpa [treeLens] using h
    have hkR : k < ((batchify_X p raw (sortByTokens trees0)).map rowsOf).length := by
      simpa using hk
    have hgetR : ((batchify_X p raw (sortByTokens trees0)).map rowsOf).getD k 0
        = rowsOf ((batchify_X p raw (sortByTokens trees0)).getD k []) := by
      have := getD_map rowsOf [] (batchify_X p raw (sortByTokens trees0)) k
      simpa [rowsOf] using this
    have hsucc : (((batchify_X p raw (sortByTokens trees0)).map rowsOf).take (k + 1)).sum
        = cumRows (batchify_X p raw (sortByTokens trees0)) k
          + rowsOf ((batchify_X p raw (sortByTokens trees0)).getD k []) := by
      rw [List.take_succ, List.sum_append, List.getElem?_eq_getElem hkR]
      rw [cumRows, List.map_take]
      simp only [Option.toList_some, List.sum_cons, List.sum_nil, add_zero]
      rw [← hgetR, List.getD_eq_getElem?_getD, List.getElem?_eq_getElem hkR]
      rfl
    have hle := sum_take_le ((batchify_X p raw (sortByTokens trees0)).map rowsOf) (k + 1)
    rw [hsucc] at hle
    simp only [batchSlice, List.length_take, List.length_drop]
    omega
  · intro trees idx rows
    simp [batchSlice, List.length_take, List.length_drop]

theorem claim_C7_witness :
    ((batchSlice (sortByTokens [mkTree 0 1, mkTree 1 2])
        (cumRows (batchify_X pEx8 [[[5], [6, 6]]] (sortByTokens [mkTree 0 1, mkTree 1 2])) 0)
        (rowsOf ((batchify_X pEx8 [[[5], [6, 6]]]
          (sortByTokens [mkTree 0 1, mkTree 1 2])).getD 0 []))).length
      = rowsOf ((batchify_X pEx8 [[[5], [6, 6]]]
          (sortByTokens [mkTree 0 1, mkTree 1 2])).getD 0 []))
    ∧ (batchSlice ([mkTree 0 1] : List (Tree ℕ ℕ)) 0 2).length = min 2 (1 - 0) :=
  ⟨(claim_C7_theorem pEx8 [[[5], [6, 6]]] [mkTree 0 1, mkTree 1 2] (by decide)).1 0 (by decide),
    (claim_C7_theorem pEx8 [[[5], [6, 6]]] [mkTree 0 1, mkTree 1 2] (by decide)).2
      [mkTree 0 1] 0 2⟩

/-! Output ordering and identity preservation of `predict`. -/

instance {V P : Type} : Inhabited (Tree V P) :=
  ⟨{ id := 0, tokens := [], words := [], comments := [] }⟩

instance treeIdLeTotal {V P : Type} : IsTotal (Tree V P) (fun a b => a.id ≤ b.id) :=
  ⟨fun a b => Nat.le_total a.id b.id⟩

instance treeIdLeTrans {V P : Type} : IsTrans (Tree V P) (fun a b => a.id ≤ b.id) :=
  ⟨fun _ _ _ h1 h2 => Nat.le_trans h1 h2⟩

/-- The identifiers of the trees `predict_go` emits are exactly those of the
not-yet-consumed tail of the sorted tree list, in order, whenever the batch
row counts cover that tail exactly. -/
theorem predict_go_ids {V P : Type} [Inhabited V] [Inhabited P] (p : Params)
    (pob : List (List (List ℕ)) → List (List P))
    (inv : List (List P) → List (Tree V P) → List (List (List V)))
    (trees : List (Tree V P)) :
    ∀ (bs : List (List (List (List ℕ)))) (idx : ℕ),
      idx ≤ trees.length → (bs.map rowsOf).sum = trees.length - idx →
      (predict_go p pob inv trees bs idx).map (fun t => t.id)
        = (trees.drop idx).map (fun t => t.id) := by
  intro bs
  induction bs with
  | nil =>
    intro idx h1 h2
    have hd : (trees.drop idx).length = 0 := by
      rw [List.length_drop]
      simpa using h2.symm
    rw [List.length_eq_zero.mp hd]
    rfl
  | cons b bs ih =>
    intro idx h1 h2
    simp only [List.map_cons, List.sum_cons] at h2
    have hbt : (batchSlice trees idx (rowsOf b)).length = rowsOf b := by
      simp only [batchSlice, List.length_take, List.length_drop]
      omega
    simp only [predict_go]
    rw [List.map_append]
    have hids : ∀ (bp : List (List P)) (bpr : List (List (List V))),
        ((batchSlice trees idx (rowsOf b)).enum.map (fun rt =>
          reassembleTree p rt.2 (bp.map fun q => q.getD rt.1 default)
            (bpr.map fun q => q.getD rt.1 default))).map (fun t => t.id)
          = (batchSlice trees idx (rowsOf b)).map (fun t => t.id) := by
      intro bp bpr
      rw [List.map_map]
      have hcomp : ((fun t : Tree V P => t.id) ∘ fun rt : ℕ × Tree V P =>
          reassembleTree p rt.2 (bp.map fun q => q.getD rt.1 default)
            (bpr.map fun q => q.getD rt.1 default))
          = fun rt : ℕ × Tree V P => rt.2.id := rfl
      rw [hcomp]
      have : (fun rt : ℕ × Tree V P => rt.2.id)
          = (fun t : Tree V P => t.id) ∘ Prod.snd := rfl
      rw [this, ← List.map_map, List.enum_map_snd]
    rw [hids]
    rw [hbt, ih (idx + rowsOf b) (by omega) (by omega)]
    rw [← List.map_append]
    congr 1
    rw [batchSlice, ← List.drop_drop, List.take_append_drop]

/-- C8: the claim fails for a zero-token tree: the batching engine drops it
(no batch is ever emitted for it), so `predict` returns no tree for
identifier 7 and the output identifier multiset differs from the input's. -/
theorem claim_C8_counterexample :
    (predict pEx8 [[[]]] (fun _ => ([] : List (List ℕ))) (fun _ _ => [])
      [mkTree 7 0]).map (fun t => t.id) = []
    ∧ ¬ (([] : List ℕ).Perm ([mkTree 7 0].map (fun t => t.id))) := by
  exact ⟨rfl, by decide⟩

/-- C8 (amended): provided every tree has at least one token (and the feature
transform has at least one column), the list `predict` returns is sorted
ascending by tree identifier and its identifier multiset equals the input's:
no tree is dropped, duplicated, or left in length-sorted order. -/
theorem claim_C8_theorem {V P : Type} [Inhabited V] [Inhabited P] (p : Params)
    (raw : List (List (List ℕ)))
    (pob : List (List (List ℕ)) → List (List P))
    (inv : List (List P) → List (Tree V P) → List (List (List V)))
    (trees0 : List (Tree V P))
    (htok : ∀ t ∈ trees0, t.tokens.length ≠ 0) (hX : raw ≠ []) :
    ((predict p raw pob inv trees0).map (fun t => t.id)).Perm
      (trees0.map (fun t => t.id))
    ∧ List.Sorted (· ≤ ·) ((predict p raw pob inv trees0).map (fun t => t.id)) := by
  have hperm0 : (sortByTokens trees0).Perm trees0 :=
    List.perm_insertionSort _ trees0
  have hrows : (batchify_X p raw (sortByTokens trees0)).map rowsOf
      = groupSizes p.batch_size (treeLens (sortByTokens trees0)) 0 0 :=
    batchify_X_go_rows p.batch_size raw hX (treeLens (sortByTokens trees0)) 0 0 0
      (raw.map fun _ => []) (by simp) (by simp)
  have hsum : ((batchify_X p raw (sortByTokens trees0)).map rowsOf).sum
      = (sortByTokens trees0).length := by
    rw [hrows, groupSizes_sum p.batch_size (treeLens (sortByTokens trees0)) 0 0 ?_ (fun _ => rfl)]
    · simp [treeLens]
    · intro n hn
      simp only [treeLens, List.mem_map] at hn
      obtain ⟨t, ht, rfl⟩ := hn
      exact Nat.pos_of_ne_zero (htok t (hperm0.mem_iff.mp ht))
  have hinner : (predict_go p pob inv (sortByTokens trees0)
        (batchify_X p raw (sortByTokens trees0)) 0).map (fun t => t.id)
      = (sortByTokens trees0).map (fun t => t.id) := by
    have h := predict_go_ids p pob inv (sortByTokens trees0)
      (batchify_X p raw (sortByTokens trees0)) 0 (Nat.zero_le _) (by omega)
    simpa using h
  constructor
  · have h1 : ((sortById (predict_go p pob inv (sortByTokens trees0)
        (batchify_X p raw (sortByTokens trees0)) 0)).map (fun t => t.id)).Perm
        ((predict_go p pob inv (sortByTokens trees0)
          (batchify_X p raw (sortByTokens trees0)) 0).map (fun t => t.id)) :=
      (List.perm_insertionSort _ _).map _
    rw [hinner] at h1
    have h2 := h1.trans (hperm0.map (fun t => t.id))
    simpa [predict] using h2
  · have hs := List.sorted_insertionSort (fun a b : Tree V P => a.id ≤ b.id)
      (predict_go p pob inv (sortByTokens trees0)
        (batchify_X p raw (sortByTokens trees0)) 0)
    have hmap : List.Sorted (· ≤ ·) ((sortById (predict_go p pob inv (sortByTokens trees0)
        (batchify_X p raw (sortByTokens trees0)) 0)).map (fun t => t.id)) :=
      List.Pairwise.map (fun t : Tree V P => t.id) (fun _ _ h => h) hs
    simpa [predict] using hmap

theorem claim_C8_witness :
    ((predict pEx8 [[[5], [6, 6]]] (fun _ => ([] : List (List ℕ))) (fun _ _ => [])
        [mkTree 2 1, mkTree 1 2]).map (fun t => t.id)).Perm
      ([mkTree 2 1, mkTree 1 2].map (fun t => t.id))
    ∧ List.Sorted (· ≤ ·)
        ((predict pEx8 [[[5], [6, 6]]] (fun _ => ([] : List (List ℕ))) (fun _ _ => [])
          [mkTree 2 1, mkTree 1 2]).map (fun t => t.id)) :=
  claim_C8_theorem pEx8 [[[5], [6, 6]]] (fun _ => []) (fun _ _ => [])
    [mkTree 2 1, mkTree 1 2] (by decide) (by decide)

/-! Reassembly frame lemmas: non-target fields are copied, `sent` only ever
reaches the embedding cell. -/

theorem getField_cons {V : Type} (kv : String × V) (rest : List (String × V)) (f : String) :
    getField (kv :: rest) f = if kv.1 = f then some kv.2 else getField rest f := by
  simp only [getField, List.find?]
  by_cases h : kv.1 = f
  · simp [h]
  · simp [h]

theorem getField_setField_ne {V : Type} (k f : String) (v : V) (h : f ≠ k) :
    ∀ fs : List (String × V), getField (setField fs k v) f = getField fs f := by
  intro fs
  induction fs with
  | nil => simp [setField, getField_cons, Ne.symm h]
  | cons kv rest ih =>
    simp only [setField]
    split
    next h' => simp [getField_cons, h', Ne.symm h]
    next h' =>
      by_cases hkf : kv.1 = f
      · simp [getField_cons, hkf]
      · simp [getField_cons, hkf, ih]

theorem foldl_updStep_fields {V : Type} [Inhabited V] (idx : ℕ) (f : String) :
    ∀ (l : List (String × List V)) (st : Token V × Option (List V)),
      (∀ fp ∈ l, fp.1 = "sent" ∨ fp.1 ≠ f) →
      getField ((l.foldl (updStep idx) st).1).fields f = getField st.1.fields f := by
  intro l
  induction l with
  | nil => intro st _; rfl
  | cons fp l ih =>
    intro st h
    simp only [List.foldl_cons]
    rw [ih _ (fun x hx => h x (List.mem_cons_of_mem fp hx))]
    simp only [updStep]
    split
    · rfl
    next hs =>
      rcases h fp (List.mem_cons_self fp l) with hsent | hne
      · exact absurd hsent hs
      · exact getField_setField_ne fp.1 f _ (Ne.symm hne) st.1.fields

theorem foldl_updStep_emb {V : Type} [Inhabited V] (idx : ℕ) :
    ∀ (l : List (String × List V)) (st : Token V × Option (List V)),
      (l.foldl (updStep idx) st).2
        = l.foldl (fun acc fp => if fp.1 = "sent" then some fp.2 else acc) st.2 := by
  intro l
  induction l with
  | nil => intro st; rfl
  | cons fp l ih =>
    intro st
    simp only [List.foldl_cons]
    rw [ih]
    congr 1
    simp only [updStep]
    split <;> rfl

theorem emb_fold_eq {V : Type} :
    ∀ (l : List (String × List V)) (e : Option (List V)),
      l.foldl (fun acc fp => if fp.1 = "sent" then some fp.2 else acc) e
        = match l.foldl (fun acc fp => if fp.1 = "sent" then some fp.2 else acc) none with
          | some v => some v
          | none => e := by
  intro l
  induction l with
  | nil => intro e; rfl
  | cons fp l ih =>
    intro e
    simp only [List.foldl_cons]
    by_cases h : fp.1 = "sent"
    · rw [if_pos h, if_pos h, ih (some fp.2)]
      cases l.foldl (fun acc fp => if fp.1 = "sent" then some fp.2 else acc) none <;> rfl
    · rw [if_neg h, if_neg h]
      exact ih e

theorem buildTokens_length {V : Type} [Inhabited V] (targets : List String)
    (rowPreds : List (List V)) :
    ∀ (toks : List (Token V)) (idx : ℕ) (e : Option (List V)),
      (buildTokens targets rowPreds toks idx e).1.length = toks.length := by
  intro toks
  induction toks with
  | nil => intro idx e; rfl
  | cons t ts ih =>
    intro idx e
    simp only [buildTokens, List.length_cons]
    rw [ih]

/-- The final value of the `emb` cell after reassembling one tree: `None` for
a tokenless tree, otherwise the last `sent` prediction if one occurs. -/
theorem buildTokens_emb {V : Type} [Inhabited V] (targets : List String)
    (rowPreds : List (List V)) :
    ∀ (toks : List (Token V)) (idx : ℕ) (e : Option (List V)),
      (buildTokens targets rowPreds toks idx e).2
        = if toks.isEmpty then e
          else match lastSentPred targets rowPreds with
               | some v => some v
               | none => e := by
  intro toks
  induction toks with
  | nil => intro idx e; rfl
  | cons t ts ih =>
    intro idx e
    simp only [buildTokens]
    rw [ih]
    have hupd : (updToken targets rowPreds idx (t, e)).2
        = (targets.zip rowPreds).foldl
            (fun acc fp => if fp.1 = "sent" then some fp.2 else acc) e :=
      foldl_updStep_emb idx (targets.zip rowPreds) (t, e)
    cases ts with
    | nil =>
      simp only [List.isEmpty_nil, List.isEmpty_cons, if_true, Bool.false_eq_true, if_false]
      rw [hupd, emb_fold_eq]
      rfl
    | cons t2 ts2 =>
      simp only [List.isEmpty_cons, Bool.false_eq_true, if_false]
      rw [hupd]
      cases hl : lastSentPred targets rowPreds with
      | some v => rfl
      | none =>
        rw [emb_fold_eq]
        simp only [lastSentPred] at hl
        rw [hl]

theorem buildTokens_getD {V : Type} [Inhabited V] (targets : List String)
    (rowPreds : List (List V)) (f : String) (hf : f ∉ targets ∨ f = "sent") :
    ∀ (toks : List (Token V)) (idx : ℕ) (e : Option (List V)) (i : ℕ),
      getField (((buildTokens targets rowPreds toks idx e).1.getD i default).fields) f
        = getField ((toks.getD i default).fields) f := by
  have hzl : ∀ fp ∈ targets.zip rowPreds, fp.1 = "sent" ∨ fp.1 ≠ f := by
    intro fp hfp
    obtain ⟨a, b⟩ := fp
    obtain ⟨h1, _⟩ := List.of_mem_zip hfp
    rcases hf with hf | hf
    · exact Or.inr (fun he => hf (he ▸ h1))
    · by_cases hs : a = "sent"
      · exact Or.inl hs
      · exact Or.inr (fun he => hs (he.trans hf))
  intro toks
  induction toks with
  | nil => intro idx e i; rfl
  | cons t ts ih =>
    intro idx e i
    simp only [buildTokens]
    cases i with
    | zero =>
      simp only [List.getD_cons_zero]
      exact foldl_updStep_fields idx f (targets.zip rowPreds) (t, e) hzl
    | succ i' =>
      simp only [List.getD_cons_succ]
      exact ih (idx + 1) _ i'

/-- Every tree `predict_go` outputs is the reassembly of some input tree. -/
theorem predict_go_mem {V P : Type} [Inhabited V] [Inhabited P] (p : Params)
    (pob : List (List (List ℕ)) → List (List P))
    (inv : List (List P) → List (Tree V P) → List (List (List V)))
    (trees : List (Tree V P)) :
    ∀ (bs : List (List (List (List ℕ)))) (idx : ℕ) (nt : Tree V P),
      nt ∈ predict_go p pob inv trees bs idx →
      ∃ ot ∈ trees, ∃ (rowProbs : List P) (rowPreds : List (List V)),
        nt = reassembleTree p ot rowProbs rowPreds := by
  intro bs
  induction bs with
  | nil => intro idx nt h; simp [predict_go] at h
  | cons b bs ih =>
    intro idx nt h
    simp only [predict_go, List.mem_append] at h
    rcases h with h | h
    · simp only [List.mem_map] at h
      obtain ⟨rt, hrt, rfl⟩ := h
      have h2 : rt.2 ∈ batchSlice trees idx (rowsOf b) := by
        have hm := List.mem_map_of_mem Prod.snd hrt
        rwa [List.enum_map_snd] at hm
      have h3 : rt.2 ∈ trees :=
        List.drop_subset idx trees (List.take_subset _ _ h2)
      exact ⟨rt.2, h3, _, _, rfl⟩
    · exact ih _ nt h

/-- C9: during reassembly, every output tree of `predict` comes from an input
tree with the same identifier and token count, any token field outside the
configured target list (and the field named `sent`, even when `sent` is a
configured target) keeps the value of the corresponding input token; the
`sent` prediction is only ever stored as the output tree's embedding, which is
`None` exactly when the tree has no tokens or no `sent` target occurs.  The
input trees are never mutated: `reassembleTree` builds fresh tokens by
copy-on-write. -/
theorem claim_C9_theorem {V P : Type} [Inhabited V] [Inhabited P] (p : Params)
    (raw : List (List (List ℕ)))
    (pob : List (List (List ℕ)) → List (List P))
    (inv : List (List P) → List (Tree V P) → List (List (List V)))
    (trees0 : List (Tree V P)) :
    (∀ nt ∈ predict p raw pob inv trees0,
      ∃ ot ∈ trees0, nt.id = ot.id ∧ nt.tokens.length = ot.tokens.length
        ∧ ∀ (i : ℕ) (f : String), f ∉ p.targets ∨ f = "sent" →
            getField ((nt.tokens.getD i default).fields) f
              = getField ((ot.tokens.getD i default).fields) f)
    ∧ ∀ (old : Tree V P) (rowProbs : List P) (rowPreds : List (List V)),
        (reassembleTree p old rowProbs rowPreds).emb
          = if old.tokens.isEmpty then none else lastSentPred p.targets rowPreds := by
  constructor
  · intro nt hnt
    have hnt' : nt ∈ predict_go p pob inv (sortByTokens trees0)
        (batchify_X p raw (sortByTokens trees0)) 0 :=
      (List.perm_insertionSort (fun a b : Tree V P => a.id ≤ b.id)
        (predict_go p pob inv (sortByTokens trees0)
          (batchify_X p raw (sortByTokens trees0)) 0)).mem_iff.mp
        (by simpa [predict, sortById] using hnt)
    obtain ⟨ot, hot, rowProbs, rowPreds, rfl⟩ :=
      predict_go_mem p pob inv (sortByTokens trees0) _ 0 nt hnt'
    refine ⟨ot, (List.perm_insertionSort _ trees0).mem_iff.mp hot, rfl, ?_, ?_⟩
    · exact buildTokens_length p.targets rowPreds ot.tokens 0 none
    · intro i f hf
      exact buildTokens_getD p.targets rowPreds f hf ot.tokens 0 none i
  · intro old rowProbs rowPreds
    have hbt := buildTokens_emb p.targets rowPreds old.tokens 0 none
    rw [show (reassembleTree p old rowProbs rowPreds).emb
        = (buildTokens p.targets rowPreds old.tokens 0 none).2 from rfl, hbt]
    by_cases he : old.tokens.isEmpty
    · simp [he]
    · simp only [he, Bool.false_eq_true, if_false]
      cases lastSentPred p.targets rowPreds <;> rfl

/-- Two-tree prediction example with a non-target token field `w` and a `sent`
target. -/
def tA : Tree ℕ ℕ :=
  { id := 2, tokens := [⟨[("w", 1)]⟩], words := [], comments := [] }

def tB : Tree ℕ ℕ :=
  { id := 1, tokens := [⟨[("w", 2)]⟩, ⟨[("w", 3)]⟩], words := [], comments := [] }

def pPred : Params :=
  { batch_size := 1, targets := ["head", "sent"], train_part := false,
    full_tree := "# full", part_tree := "# part", save_probs := false }

/-- The output of `predict` on the two-tree example. -/
def predEx : List (Tree ℕ ℕ) :=
  predict pPred [[[9], [8, 8]]] (fun _ => [[5, 5]])
    (fun _ _ => [[[7, 7], [7, 7]], [[6], [6]]]) [tA, tB]

theorem claim_C9_witness :
    ∃ ot ∈ [tA, tB], (predEx.getD 0 default).id = ot.id
      ∧ (predEx.getD 0 default).tokens.length = ot.tokens.length
      ∧ ∀ (i : ℕ) (f : String), f ∉ pPred.targets ∨ f = "sent" →
          getField (((predEx.getD 0 default).tokens.getD i default).fields) f
            = getField ((ot.tokens.getD i default).fields) f :=
  (claim_C9_theorem pPred [[[9], [8, 8]]] (fun _ => [[5, 5]])
    (fun _ _ => [[[7, 7], [7, 7]], [[6], [6]]]) [tA, tB]).1
    (predEx.getD 0 default) (by decide)

end Combo
